import Mathlib

/-!
Verification of the incremental bubble-sort engine of
`src/days/31_sortiterator.rs` (`BubbleSort<T>` and its `Iterator::next`).

The engine is embedded shallowly: the Rust struct becomes a Lean
structure, and `next` becomes a function returning
`Option (Option (List α) × BubbleSort α)`.  The outer `Option` models
panics of the slice indexing (`none` = out-of-bounds panic, which Rust
would raise on `self.items[i]`); the inner `Option (List α)` is the
iterator's yielded value (`none` = iterator exhaustion).
-/

namespace Day31

/-- The `BubbleSort<T>` struct of the source: the item vector, the
`did_swap` flag for the current pass, the cursor `index`, and the
terminal flag `done`. -/
structure BubbleSort (α : Type) where
  items : List α
  did_swap : Bool
  index : Nat
  done : Bool
deriving DecidableEq, Repr

namespace BubbleSort

/-- `BubbleSort::new`: collect the input into `items`, with
`did_swap = false`, `index = 0`, `done = false`. -/
def new {α : Type} (l : List α) : BubbleSort α :=
  { items := l, did_swap := false, index := 0, done := false }

/-- The comparison/swap tail of `next` (lines 139-145 of the source):
read `items[index]` and `items[index + 1]` (out of bounds = panic,
modelled by the outer `none`), swap them and set `did_swap` when
`items[index] > items[index + 1]`, advance the cursor, and yield a
clone of the items. -/
def compareAt {α : Type} [LinearOrder α] (s : BubbleSort α) :
    Option (Option (List α) × BubbleSort α) :=
  match s.items.get? s.index, s.items.get? (s.index + 1) with
  | some a, some b =>
    if b < a then
      let its := (s.items.set s.index b).set (s.index + 1) a
      some (some its,
        { items := its, did_swap := true, index := s.index + 1, done := s.done })
    else
      some (some s.items,
        { items := s.items, did_swap := s.did_swap, index := s.index + 1,
          done := s.done })
  | _, _ => none

/-- `<BubbleSort<T> as Iterator>::next` (lines 125-146 of the source).

* if `items` is empty or `done`, return `None` (inner `none`);
* if `index >= items.len() - 1`: with no swap in the pass, set `done`
  and yield the items; otherwise reset `index` to 0 and `did_swap` to
  `false` and fall through to the comparison;
* compare/swap at the cursor, advance, yield the items. -/
def next {α : Type} [LinearOrder α] (s : BubbleSort α) :
    Option (Option (List α) × BubbleSort α) :=
  if s.items = [] ∨ s.done = true then
    some (none, s)
  else if s.items.length - 1 ≤ s.index then
    if s.did_swap = false then
      some (some s.items, { s with done := true })
    else
      compareAt { s with index := 0, did_swap := false }
  else
    compareAt s

/-- State after `n` calls of `next` (panic propagates as `none`). -/
def steps {α : Type} [LinearOrder α] (s : BubbleSort α) : Nat → Option (BubbleSort α)
  | 0 => some s
  | n + 1 =>
    match next s with
    | some (_, s1) => steps s1 n
    | none => none

/-- The list of the first `n` outputs of the iterator (each output is
`some snapshot` or `none` for exhaustion; a panic gives outer `none`). -/
def trace {α : Type} [LinearOrder α] (s : BubbleSort α) : Nat → Option (List (Option (List α)))
  | 0 => some []
  | n + 1 =>
    match next s with
    | some (o, s1) => (trace s1 n).map (fun r => o :: r)
    | none => none

/-- Number of swaps performed during the first `n` calls, observed as
the calls on which the item vector changes. -/
def swapsDuring {α : Type} [LinearOrder α] (s : BubbleSort α) : Nat → Option Nat
  | 0 => some 0
  | n + 1 =>
    match next s with
    | some (_, s1) =>
      (swapsDuring s1 n).map (fun k => (if s1.items = s.items then 0 else 1) + k)
    | none => none

/-- Number of key comparisons a single `next` call performs from state
`s`: the source has exactly one comparison site (line 139), reached
once per call unless the call returns early. -/
def comparisons {α : Type} [LinearOrder α] (s : BubbleSort α) : Nat :=
  if s.items = [] ∨ s.done = true then 0
  else if s.items.length - 1 ≤ s.index then
    if s.did_swap = false then 0 else 1
  else 1

end BubbleSort

/-- `l` is sorted non-decreasing (adjacent comparisons), Boolean form. -/
def sortedB {α : Type} [LinearOrder α] : List α → Bool
  | [] => true
  | [_] => true
  | a :: b :: t => decide (a ≤ b) && sortedB (b :: t)

/-- `l` is strictly descending, Boolean form. -/
def descB {α : Type} [LinearOrder α] : List α → Bool
  | [] => true
  | [_] => true
  | a :: b :: t => decide (b < a) && descB (b :: t)

/-- Number of inversions: pairs at positions `i < j` whose values are
strictly out of order. -/
def inversions {α : Type} [LinearOrder α] : List α → Nat
  | [] => 0
  | a :: t => t.countP (fun b => decide (b < a)) + inversions t

/-- One left-to-right bubble pass carrying head `a` over `t`, with the
running swap flag; returns the passed list and the final flag. -/
def bpassAux {α : Type} [LinearOrder α] (a : α) : List α → Bool → List α × Bool
  | [], ds => ([a], ds)
  | b :: t, ds =>
    if b < a then
      let r := bpassAux a t true
      (b :: r.1, r.2)
    else
      let r := bpassAux b t ds
      (a :: r.1, r.2)

/-- One full bubble pass over a list. -/
def bp {α : Type} [LinearOrder α] : List α → List α
  | [] => []
  | a :: t => (bpassAux a t false).1

/-- `k` bubble passes. -/
def bpN {α : Type} [LinearOrder α] : Nat → List α → List α
  | 0, l => l
  | k + 1, l => bpN k (bp l)

section ListHelpers

variable {α : Type}

lemma get?_append_len : ∀ (P rest : List α) (k : Nat),
    (P ++ rest).get? (P.length + k) = rest.get? k := by
  intro P
  induction P with
  | nil => intro rest k; simp
  | cons p P ih =>
    intro rest k
    have h1 : (p :: P).length + k = (P.length + k) + 1 := by simp; omega
    rw [h1]
    simpa using ih rest k

lemma set_append_len : ∀ (P rest : List α) (k : Nat) (x : α),
    (P ++ rest).set (P.length + k) x = P ++ rest.set k x := by
  intro P
  induction P with
  | nil => intro rest k x; simp
  | cons p P ih =>
    intro rest k x
    have h1 : (p :: P).length + k = (P.length + k) + 1 := by simp; omega
    rw [h1]
    simp [ih rest k x]

lemma getTwoSplit : ∀ (i : Nat) (l : List α) (a b : α),
    l.get? i = some a → l.get? (i + 1) = some b →
    ∃ P t, l = P ++ a :: b :: t ∧ P.length = i := by
  intro i
  induction i with
  | zero =>
    intro l a b ha hb
    match l with
    | [] => simp [List.get?] at ha
    | [x] => simp [List.get?] at hb
    | x :: y :: t =>
      simp [List.get?] at ha hb
      exact ⟨[], t, by simp [ha, hb], rfl⟩
  | succ i ih =>
    intro l a b ha hb
    match l with
    | [] => simp [List.get?] at ha
    | x :: l' =>
      simp only [List.get?] at ha hb
      obtain ⟨P, t, hl, hP⟩ := ih l' a b ha hb
      exact ⟨x :: P, t, by simp [hl], by simp [hP]⟩

end ListHelpers

namespace BubbleSort

variable {α : Type} [LinearOrder α]

lemma compareAt_eq (s : BubbleSort α) (P t : List α) (a b : α)
    (hl : s.items = P ++ a :: b :: t) (hi : s.index = P.length) :
    compareAt s =
      if b < a then
        some (some (P ++ b :: a :: t),
          { items := P ++ b :: a :: t, did_swap := true, index := s.index + 1,
            done := s.done })
      else
        some (some s.items,
          { items := s.items, did_swap := s.did_swap, index := s.index + 1,
            done := s.done }) := by
  have hga : s.items.get? s.index = some a := by
    rw [hl, hi]
    have := get?_append_len P (a :: b :: t) 0
    simpa using this
  have hgb : s.items.get? (s.index + 1) = some b := by
    rw [hl, hi]
    have := get?_append_len P (a :: b :: t) 1
    simpa using this
  have hset : (s.items.set s.index b).set (s.index + 1) a = P ++ b :: a :: t := by
    rw [hl, hi]
    have h0 := set_append_len P (a :: b :: t) 0 b
    have h1 := set_append_len P (b :: b :: t) 1 a
    simp only [Nat.add_zero] at h0
    rw [show (a :: b :: t).set 0 b = b :: b :: t from rfl] at h0
    rw [h0, h1]
    rfl
  unfold compareAt
  rw [hga, hgb]
  by_cases hba : b < a
  · simp [hba, hset]
  · simp [hba]

lemma next_stop (s : BubbleSort α) (h : s.items = [] ∨ s.done = true) :
    next s = some (none, s) := by
  unfold next
  rw [if_pos h]

lemma next_terminal (s : BubbleSort α) (h : ¬(s.items = [] ∨ s.done = true))
    (h2 : s.items.length - 1 ≤ s.index) (h3 : s.did_swap = false) :
    next s = some (some s.items, { s with done := true }) := by
  unfold next
  rw [if_neg h, if_pos h2, if_pos h3]

lemma next_reset (s : BubbleSort α) (h : ¬(s.items = [] ∨ s.done = true))
    (h2 : s.items.length - 1 ≤ s.index) (h3 : ¬s.did_swap = false) :
    next s = compareAt { s with index := 0, did_swap := false } := by
  unfold next
  rw [if_neg h, if_pos h2, if_neg h3]

lemma next_mid (s : BubbleSort α) (h : ¬(s.items = [] ∨ s.done = true))
    (h2 : ¬s.items.length - 1 ≤ s.index) :
    next s = compareAt s := by
  unfold next
  rw [if_neg h, if_neg h2]

lemma compareAt_inv (s : BubbleSort α) (o : Option (List α)) (s1 : BubbleSort α)
    (h : compareAt s = some (o, s1)) :
    ∃ P t a b, s.items = P ++ a :: b :: t ∧ P.length = s.index ∧
      ((b < a ∧ o = some (P ++ b :: a :: t) ∧
         s1 = { items := P ++ b :: a :: t, did_swap := true, index := s.index + 1,
                done := s.done }) ∨
       (a ≤ b ∧ o = some s.items ∧
         s1 = { items := s.items, did_swap := s.did_swap, index := s.index + 1,
                done := s.done })) := by
  cases hga : s.items.get? s.index with
  | none => unfold compareAt at h; rw [hga] at h; exact absurd h (by simp)
  | some a =>
    cases hgb : s.items.get? (s.index + 1) with
    | none =>
      unfold compareAt at h
      rw [hga, hgb] at h
      exact absurd h (by simp)
    | some b =>
      obtain ⟨P, t, hl, hP⟩ := getTwoSplit s.index s.items a b hga hgb
      rw [compareAt_eq s P t a b hl hP.symm] at h
      refine ⟨P, t, a, b, hl, hP, ?_⟩
      by_cases hba : b < a
      · rw [if_pos hba] at h
        simp only [Option.some.injEq, Prod.mk.injEq] at h
        exact Or.inl ⟨hba, h.1.symm, h.2.symm⟩
      · rw [if_neg hba] at h
        simp only [Option.some.injEq, Prod.mk.injEq] at h
        exact Or.inr ⟨le_of_not_lt hba, h.1.symm, h.2.symm⟩

lemma next_inv (s : BubbleSort α) (o : Option (List α)) (s1 : BubbleSort α)
    (h : next s = some (o, s1)) :
    ((s.items = [] ∨ s.done = true) ∧ o = none ∧ s1 = s) ∨
    (s.items ≠ [] ∧ s.done = false ∧ s.items.length - 1 ≤ s.index ∧
      s.did_swap = false ∧ o = some s.items ∧ s1 = { s with done := true }) ∨
    (∃ i ds0,
      ((¬s.items.length - 1 ≤ s.index ∧ i = s.index ∧ ds0 = s.did_swap) ∨
        (s.items.length - 1 ≤ s.index ∧ s.did_swap = true ∧ i = 0 ∧ ds0 = false)) ∧
      s.items ≠ [] ∧ s.done = false ∧
      ∃ P t a b, s.items = P ++ a :: b :: t ∧ P.length = i ∧
        ((b < a ∧ o = some (P ++ b :: a :: t) ∧
           s1 = { items := P ++ b :: a :: t, did_swap := true, index := i + 1,
                  done := false }) ∨
         (a ≤ b ∧ o = some s.items ∧
           s1 = { items := s.items, did_swap := ds0, index := i + 1,
                  done := false }))) := by
  by_cases h0 : s.items = [] ∨ s.done = true
  · rw [next_stop s h0] at h
    simp only [Option.some.injEq, Prod.mk.injEq] at h
    exact Or.inl ⟨h0, h.1.symm, h.2.symm⟩
  · have hne : s.items ≠ [] := fun hx => h0 (Or.inl hx)
    have hnd : s.done = false := by
      cases hdd : s.done
      · rfl
      · exact absurd (Or.inr hdd) h0
    by_cases h2 : s.items.length - 1 ≤ s.index
    · by_cases h3 : s.did_swap = false
      · rw [next_terminal s h0 h2 h3] at h
        simp only [Option.some.injEq, Prod.mk.injEq] at h
        exact Or.inr (Or.inl ⟨hne, hnd, h2, h3, h.1.symm, h.2.symm⟩)
      · rw [next_reset s h0 h2 h3] at h
        obtain ⟨P, t, a, b, hl, hP, hcase⟩ :=
          compareAt_inv { s with index := 0, did_swap := false } o s1 h
        refine Or.inr (Or.inr ⟨0, false,
          Or.inr ⟨h2, by revert h3; cases s.did_swap <;> simp, rfl, rfl⟩,
          hne, hnd, P, t, a, b, hl, hP, ?_⟩)
        rcases hcase with ⟨hba, ho, hs1⟩ | ⟨hab, ho, hs1⟩
        · exact Or.inl ⟨hba, ho, by rw [hs1]; simp [hnd]⟩
        · exact Or.inr ⟨hab, ho, by rw [hs1]; simp [hnd]⟩
    · rw [next_mid s h0 h2] at h
      obtain ⟨P, t, a, b, hl, hP, hcase⟩ := compareAt_inv s o s1 h
      refine Or.inr (Or.inr ⟨s.index, s.did_swap, Or.inl ⟨h2, rfl, rfl⟩,
        hne, hnd, P, t, a, b, hl, hP, ?_⟩)
      rcases hcase with ⟨hba, ho, hs1⟩ | ⟨hab, ho, hs1⟩
      · exact Or.inl ⟨hba, ho, by rw [hs1]; simp [hnd]⟩
      · exact Or.inr ⟨hab, ho, by rw [hs1]; simp [hnd]⟩

/-- Every produced output is either the exhaustion signal or a snapshot
of the post-call item vector. -/
lemma next_out (s : BubbleSort α) (o : Option (List α)) (s1 : BubbleSort α)
    (h : next s = some (o, s1)) : o = none ∨ o = some s1.items := by
  rcases next_inv s o s1 h with ⟨_, ho, _⟩ | ⟨_, _, _, _, ho, hs1⟩ |
    ⟨i, ds0, _, _, _, P, t, a, b, hl, _, ⟨_, ho, hs1⟩ | ⟨_, ho, hs1⟩⟩
  · exact Or.inl ho
  · exact Or.inr (by rw [ho, hs1])
  · exact Or.inr (by rw [ho, hs1])
  · exact Or.inr (by rw [ho, hs1])

/-- The item vector of the post-call state is a permutation of the
pre-call one (each call swaps at most one adjacent pair). -/
lemma next_items_perm (s : BubbleSort α) (o : Option (List α)) (s1 : BubbleSort α)
    (h : next s = some (o, s1)) : s1.items.Perm s.items := by
  rcases next_inv s o s1 h with ⟨_, _, hs1⟩ | ⟨_, _, _, _, _, hs1⟩ |
    ⟨i, ds0, _, _, _, P, t, a, b, hl, _, ⟨_, _, hs1⟩ | ⟨_, _, hs1⟩⟩
  · rw [hs1]
  · rw [hs1]
  · rw [hs1, hl]
    exact (List.Perm.swap a b t).append_left P
  · rw [hs1]

lemma steps_succ_of_next (s : BubbleSort α) (o : Option (List α)) (s1 : BubbleSort α)
    (h : next s = some (o, s1)) (n : Nat) : steps s (n + 1) = steps s1 n := by
  have hu : steps s (n + 1) =
      match next s with
      | some (_, s2) => steps s2 n
      | none => none := rfl
  rw [hu, h]

lemma steps_add (s : BubbleSort α) (m n : Nat) :
    steps s (m + n) = (steps s m).bind (fun x => steps x n) := by
  induction m generalizing s with
  | zero => simp [steps]
  | succ m ih =>
    have hh : m + 1 + n = (m + n) + 1 := by omega
    rw [hh]
    have hu1 : steps s ((m + n) + 1) =
        match next s with
        | some (_, s2) => steps s2 (m + n)
        | none => none := rfl
    have hu2 : steps s (m + 1) =
        match next s with
        | some (_, s2) => steps s2 m
        | none => none := rfl
    rw [hu1, hu2]
    cases hnx : next s with
    | none => simp
    | some p =>
      cases p with
      | mk o s1 => simpa using ih s1

/-- Post-terminal (or empty-input) calls never change the state. -/
lemma steps_fixed (s : BubbleSort α) (h : s.items = [] ∨ s.done = true) :
    ∀ k, steps s k = some s := by
  intro k
  induction k with
  | zero => rfl
  | succ k ih =>
    rw [steps_succ_of_next s none s (next_stop s h) k]
    exact ih

end BubbleSort

section SortedLemmas

variable {α : Type} [LinearOrder α]

lemma sortedB_of_adj : ∀ l : List α,
    (∀ j a b, l.get? j = some a → l.get? (j + 1) = some b → a ≤ b) →
    sortedB l = true := by
  intro l
  induction l with
  | nil => intro _; rfl
  | cons x t ih =>
    cases t with
    | nil => intro _; rfl
    | cons y t' =>
      intro h
      have hxy : x ≤ y := h 0 x y rfl rfl
      have ht : sortedB (y :: t') = true :=
        ih (fun j a b hja hjb => h (j + 1) a b hja hjb)
      simp [sortedB, hxy, ht]

lemma sortedB_head_le : ∀ (t : List α) (a : α),
    sortedB (a :: t) = true → ∀ x ∈ t, a ≤ x := by
  intro t
  induction t with
  | nil => intro a _ x hx; simp at hx
  | cons b t' ih =>
    intro a h x hx
    simp only [sortedB, Bool.and_eq_true, decide_eq_true_eq] at h
    rcases List.mem_cons.mp hx with hb | ht'
    · rw [hb]; exact h.1
    · exact le_trans h.1 (ih b h.2 x ht')

lemma sortedB_iff_sorted : ∀ l : List α,
    sortedB l = true ↔ List.Sorted (· ≤ ·) l := by
  intro l
  induction l with
  | nil => simp [sortedB]
  | cons a t ih =>
    cases t with
    | nil => simp [sortedB]
    | cons b t' =>
      constructor
      · intro h
        have h' := h
        simp only [sortedB, Bool.and_eq_true, decide_eq_true_eq] at h'
        refine List.sorted_cons.mpr ⟨?_, ih.mp h'.2⟩
        intro x hx
        rcases List.mem_cons.mp hx with hb | ht'
        · rw [hb]; exact h'.1
        · exact le_trans h'.1 (sortedB_head_le t' b h'.2 x ht')
      · intro h
        rcases List.sorted_cons.mp h with ⟨hall, hs⟩
        simp only [sortedB, Bool.and_eq_true, decide_eq_true_eq]
        exact ⟨hall b (List.mem_cons_self b t'), ih.mpr hs⟩

end SortedLemmas

namespace BubbleSort

variable {α : Type} [LinearOrder α]

/-- Structural well-formedness of an engine state: the swap flag can
only be set with at least two items, and the cursor stays within
`max(len - 1, 0)`. -/
def WF (s : BubbleSort α) : Prop :=
  (s.did_swap = true → 2 ≤ s.items.length) ∧ s.index ≤ s.items.length - 1

/-- All adjacent pairs strictly before the cursor are in order. -/
def prefixSorted (s : BubbleSort α) : Prop :=
  ∀ j a b, j + 1 ≤ s.index → s.items.get? j = some a →
    s.items.get? (j + 1) = some b → a ≤ b

/-- The reachability invariant of the engine. -/
def Inv (s : BubbleSort α) : Prop :=
  WF s ∧ (s.did_swap = false → prefixSorted s) ∧
    (s.done = true → sortedB s.items = true)

lemma inv_new (l : List α) : Inv (new l) := by
  refine ⟨⟨?_, ?_⟩, ?_, ?_⟩
  · intro h; simp [new] at h
  · simp [new]
  · intro _ j a b hj _ _
    simp [new] at hj
  · intro h; simp [new] at h

lemma next_total (s : BubbleSort α) (h : WF s) :
    ∃ o s1, next s = some (o, s1) := by
  by_cases h0 : s.items = [] ∨ s.done = true
  · exact ⟨none, s, next_stop s h0⟩
  · have hne : s.items ≠ [] := fun hx => h0 (Or.inl hx)
    have hlen1 : 1 ≤ s.items.length := by
      cases hit : s.items with
      | nil => exact absurd hit hne
      | cons x t => simp [hit]
    by_cases h2 : s.items.length - 1 ≤ s.index
    · by_cases h3 : s.did_swap = false
      · exact ⟨_, _, next_terminal s h0 h2 h3⟩
      · have hds : s.did_swap = true := by revert h3; cases s.did_swap <;> simp
        have hlen : 2 ≤ s.items.length := h.1 hds
        obtain ⟨a, b, t, hl⟩ : ∃ a b t, s.items = a :: b :: t := by
          cases hit : s.items with
          | nil => rw [hit] at hlen; simp at hlen
          | cons a t1 =>
            cases t1 with
            | nil => rw [hit] at hlen; simp at hlen
            | cons b t => exact ⟨a, b, t, rfl⟩
        rw [next_reset s h0 h2 h3,
          compareAt_eq { s with index := 0, did_swap := false } [] t a b
            (by simp [hl]) (by simp)]
        by_cases hba : b < a
        · rw [if_pos hba]; exact ⟨_, _, rfl⟩
        · rw [if_neg hba]; exact ⟨_, _, rfl⟩
    · have hidx : s.index + 1 < s.items.length := by omega
      obtain ⟨a, ha⟩ : ∃ a, s.items.get? s.index = some a :=
        ⟨_, List.get?_eq_get (by omega)⟩
      obtain ⟨b, hb⟩ : ∃ b, s.items.get? (s.index + 1) = some b :=
        ⟨_, List.get?_eq_get hidx⟩
      obtain ⟨P, t, hl, hP⟩ := getTwoSplit s.index s.items a b ha hb
      rw [next_mid s h0 h2, compareAt_eq s P t a b hl hP.symm]
      by_cases hba : b < a
      · rw [if_pos hba]; exact ⟨_, _, rfl⟩
      · rw [if_neg hba]; exact ⟨_, _, rfl⟩

lemma inv_step (s : BubbleSort α) (o : Option (List α)) (s1 : BubbleSort α)
    (hInv : Inv s) (h : next s = some (o, s1)) : Inv s1 := by
  obtain ⟨⟨hwf1, hwf2⟩, hpre, hdone⟩ := hInv
  rcases next_inv s o s1 h with
    ⟨_, _, hs1⟩ |
    ⟨hne, hnd, h2, h3, ho, hs1⟩ |
    ⟨i, ds0, hcase, hne, hnd, P, t, a, b, hl, hP, hbr⟩
  · rw [hs1]; exact ⟨⟨hwf1, hwf2⟩, hpre, hdone⟩
  · rw [hs1]
    refine ⟨⟨hwf1, hwf2⟩, fun hds j a b hj hja hjb => hpre h3 j a b hj hja hjb,
      fun _ => ?_⟩
    apply sortedB_of_adj
    intro j a b hja hjb
    have hjlen : j + 1 < s.items.length := by
      rcases List.get?_eq_some.mp hjb with ⟨hh, _⟩
      exact hh
    exact hpre h3 j a b (by omega) hja hjb
  · have hlen : s.items.length = P.length + t.length + 2 := by
      rw [hl]; simp; omega
    rcases hbr with ⟨hba, ho, hs1⟩ | ⟨hab, ho, hs1⟩
    · rw [hs1]
      have hlen' : (P ++ b :: a :: t).length = P.length + t.length + 2 := by
        simp; omega
      refine ⟨⟨fun _ => by rw [hlen']; omega, by simp only []; rw [hlen']; omega⟩,
        fun hff => by simp at hff, fun hdd => by simp at hdd⟩
    · rw [hs1]
      refine ⟨⟨fun _ => by rw [hlen] at *; omega, by simp only []; omega⟩,
        fun hds0 => ?_, fun hdd => by simp at hdd⟩
      intro j a' b' hj hja hjb
      simp only [] at hj hja hjb
      by_cases hji : j + 1 ≤ i
      · rcases hcase with ⟨hmid, hi, hds⟩ | ⟨hend, hdst, hi, hds⟩
        · exact hpre (by rw [← hds]; exact hds0) j a' b' (by omega) hja hjb
        · omega
      · have hji' : j = i := by omega
        have hga : s.items.get? i = some a := by
          rw [hl, ← hP]
          have := get?_append_len P (a :: b :: t) 0
          simpa using this
        have hgb : s.items.get? (i + 1) = some b := by
          rw [hl, ← hP]
          have := get?_append_len P (a :: b :: t) 1
          simpa using this
        rw [hji'] at hja hjb
        rw [hga] at hja
        rw [hgb] at hjb
        have ha' : a' = a := by injection hja.symm
        have hb' : b' = b := by injection hjb.symm
        rw [ha', hb']
        exact hab

lemma steps_reach : ∀ (k : Nat) (s : BubbleSort α), Inv s →
    ∃ s1, steps s k = some s1 ∧ Inv s1 ∧ s1.items.Perm s.items := by
  intro k
  induction k with
  | zero => intro s hs; exact ⟨s, rfl, hs, List.Perm.refl _⟩
  | succ k ih =>
    intro s hs
    obtain ⟨o, s1, hn⟩ := next_total s hs.1
    obtain ⟨s2, hsteps, hinv, hperm⟩ := ih s1 (inv_step s o s1 hs hn)
    exact ⟨s2, by rw [steps_succ_of_next s o s1 hn]; exact hsteps, hinv,
      hperm.trans (next_items_perm s o s1 hn)⟩

lemma trace_succ_of_next (s : BubbleSort α) (o : Option (List α)) (s1 : BubbleSort α)
    (h : next s = some (o, s1)) (n : Nat) :
    trace s (n + 1) = (trace s1 n).map (fun r => o :: r) := by
  have hu : trace s (n + 1) =
      match next s with
      | some (o2, s2) => (trace s2 n).map (fun r => o2 :: r)
      | none => none := rfl
  rw [hu, h]

end BubbleSort

namespace Claims

open BubbleSort

variable {α : Type} [LinearOrder α]

/-- C2: for every finite input and every number of step calls, the
engine's current item vector — and every snapshot any further call
would emit — is a permutation of the original input: no items are
created or destroyed, only reordered. -/
theorem c2_permutation_invariant (l : List α) (k : Nat) :
    ∃ s1, steps (new l) k = some s1 ∧ s1.items.Perm l ∧
      ∀ o s2, next s1 = some (o, s2) →
        s2.items.Perm l ∧ ∀ m, o = some m → m.Perm l := by
  obtain ⟨s1, hst, hinv, hperm⟩ := steps_reach k (new l) (inv_new l)
  refine ⟨s1, hst, hperm, ?_⟩
  intro o s2 hnx
  have h2 : s2.items.Perm l := (next_items_perm s1 o s2 hnx).trans hperm
  refine ⟨h2, fun m hm => ?_⟩
  rcases next_out s1 o s2 hnx with hn | hsome
  · rw [hn] at hm; exact absurd hm (by simp)
  · rw [hsome] at hm
    have : m = s2.items := by injection hm.symm
    rw [this]
    exact h2

/-- C5: a call yields the exhaustion signal (no snapshot) exactly when
the input was empty or the terminal state was already reached; every
such call returns the state unmutated, so repeated post-terminal calls
return the same result, and the empty input is immediately terminal
with no snapshot ever produced. -/
theorem c5_exhaustion_idempotent (s : BubbleSort α) :
    ((∃ s1, next s = some (none, s1)) ↔ (s.items = [] ∨ s.done = true)) ∧
    ((s.items = [] ∨ s.done = true) →
      next s = some (none, s) ∧ ∀ k, steps s k = some s) ∧
    (∀ k, trace (new ([] : List α)) k = some (List.replicate k none)) := by
  refine ⟨⟨?_, fun h0 => ⟨s, next_stop s h0⟩⟩,
    fun h0 => ⟨next_stop s h0, steps_fixed s h0⟩, ?_⟩
  · rintro ⟨s1, h⟩
    rcases next_inv s none s1 h with ⟨h0, _, _⟩ | ⟨_, _, _, _, ho, _⟩ |
      ⟨i, ds0, _, _, _, P, t, a, b, _, _, ⟨_, ho, _⟩ | ⟨_, ho, _⟩⟩
    · exact h0
    · exact absurd ho (by simp)
    · exact absurd ho (by simp)
    · exact absurd ho (by simp)
  · intro k
    induction k with
    | zero => rfl
    | succ k ih =>
      rw [trace_succ_of_next (new ([] : List α)) none (new [])
        (next_stop (new []) (Or.inl rfl)) k, ih]
      simp [List.replicate_succ]

/-- C8: on input `[3,1,2]` the engine emits `[1,3,2]` (swap at 0),
then `[1,2,3]` (swap at 1), then runs a pass with no swap whose end
makes it terminal with final snapshot `[1,2,3]`, after which it is
exhausted. -/
theorem c8_scenario_312 :
    trace (new [3, 1, 2]) 6 =
      some [some [1, 3, 2], some [1, 2, 3], some [1, 2, 3], some [1, 2, 3],
        some [1, 2, 3], none] ∧
    steps (new [3, 1, 2]) 1 = some ⟨[1, 3, 2], true, 1, false⟩ ∧
    steps (new [3, 1, 2]) 2 = some ⟨[1, 2, 3], true, 2, false⟩ ∧
    swapsDuring (new [3, 1, 2]) 2 = some 2 ∧
    swapsDuring (new [3, 1, 2]) 6 = some 2 ∧
    steps (new [3, 1, 2]) 5 = some ⟨[1, 2, 3], false, 2, true⟩ := by
  refine ⟨?_, ?_, ?_, ?_, ?_, ?_⟩ <;> decide

/-- C9: from construction on any finite input, every run of step calls
is panic-free (the embedding never reaches the out-of-bounds branch:
each reachable state has a defined `next`), and the cursor invariant
`index ≤ max(len-1, 0)` holds after construction and after every
call. -/
theorem c9_inbounds_cursor (l : List α) (k : Nat) :
    ∃ s1, steps (new l) k = some s1 ∧ s1.index ≤ s1.items.length - 1 ∧
      ∃ o s2, next s1 = some (o, s2) := by
  obtain ⟨s1, hst, hinv, _⟩ := steps_reach k (new l) (inv_new l)
  exact ⟨s1, hst, hinv.1.2, next_total s1 hinv.1⟩

end Claims

section InversionLemmas

variable {α : Type} [LinearOrder α]

lemma inversions_append_perm : ∀ (P r1 r2 : List α), r1.Perm r2 →
    inversions (P ++ r1) + inversions r2 = inversions (P ++ r2) + inversions r1 := by
  intro P
  induction P with
  | nil => intro r1 r2 _; simp [Nat.add_comm]
  | cons p P ih =>
    intro r1 r2 h
    have e1 : inversions ((p :: P) ++ r1) =
        List.countP (fun b => decide (b < p)) (P ++ r1) + inversions (P ++ r1) := rfl
    have e2 : inversions ((p :: P) ++ r2) =
        List.countP (fun b => decide (b < p)) (P ++ r2) + inversions (P ++ r2) := rfl
    rw [e1, e2, List.countP_append, List.countP_append]
    have hc := h.countP_eq (fun b => decide (b < p))
    have hih := ih r1 r2 h
    omega

lemma inversions_swap_head (a b : α) (t : List α) (hba : b < a) :
    inversions (b :: a :: t) + 1 = inversions (a :: b :: t) := by
  simp only [inversions, List.countP_cons]
  have h1 : (decide (b < a)) = true := by simpa using hba
  have h2 : (decide (a < b)) = false := by
    simpa using not_lt_of_gt hba
  rw [h1, h2]
  simp only [if_true, if_false, Bool.false_eq_true, eq_self_iff_true]
  omega

lemma inversions_swap (P t : List α) (a b : α) (hba : b < a) :
    inversions (P ++ b :: a :: t) + 1 = inversions (P ++ a :: b :: t) := by
  have hp : (b :: a :: t).Perm (a :: b :: t) := List.Perm.swap a b t
  have h1 := inversions_append_perm P (b :: a :: t) (a :: b :: t) hp
  have h2 := inversions_swap_head a b t hba
  omega

lemma inversions_of_sortedB : ∀ l : List α, sortedB l = true → inversions l = 0 := by
  intro l
  induction l with
  | nil => intro _; rfl
  | cons a t ih =>
    intro h
    have ht : sortedB t = true := by
      cases t with
      | nil => rfl
      | cons b t' =>
        simp only [sortedB, Bool.and_eq_true] at h
        exact h.2
    have hcount : t.countP (fun x => decide (x < a)) = 0 := by
      apply List.countP_eq_zero.mpr
      intro x hx
      simpa using not_lt.mpr (sortedB_head_le t a h x hx)
    simp [inversions, hcount, ih ht]

lemma descB_head_gt : ∀ (t : List α) (a : α),
    descB (a :: t) = true → ∀ x ∈ t, x < a := by
  intro t
  induction t with
  | nil => intro a _ x hx; simp at hx
  | cons b t' ih =>
    intro a h x hx
    simp only [descB, Bool.and_eq_true, decide_eq_true_eq] at h
    rcases List.mem_cons.mp hx with hb | ht'
    · rw [hb]; exact h.1
    · exact lt_trans (ih b h.2 x ht') h.1

lemma gauss_aux (n : Nat) : n + n * (n - 1) / 2 = (n + 1) * n / 2 := by
  have h1 : (n + 1).choose 2 = n.choose 1 + n.choose 2 := Nat.choose_succ_succ n 1
  rw [Nat.choose_one_right] at h1
  have h2 : (n + 1).choose 2 = (n + 1) * n / 2 := by
    rw [Nat.choose_two_right]
    simp
  have h3 : n.choose 2 = n * (n - 1) / 2 := Nat.choose_two_right n
  omega

lemma inversions_of_descB : ∀ l : List α,
    descB l = true → inversions l = l.length * (l.length - 1) / 2 := by
  intro l
  induction l with
  | nil => intro _; simp [inversions]
  | cons a t ih =>
    intro h
    have ht : descB t = true := by
      cases t with
      | nil => rfl
      | cons b t' =>
        simp only [descB, Bool.and_eq_true] at h
        exact h.2
    have hcount : t.countP (fun x => decide (x < a)) = t.length := by
      apply List.countP_eq_length.mpr
      intro x hx
      simpa using descB_head_gt t a h x hx
    have hih := ih ht
    simp only [inversions, hcount, hih, List.length_cons, Nat.add_sub_cancel]
    have := gauss_aux t.length
    omega

end InversionLemmas

namespace BubbleSort

variable {α : Type} [LinearOrder α]

/-- One call either leaves the items unchanged or transposes exactly
one strictly out-of-order adjacent pair. -/
lemma next_items_cases (s : BubbleSort α) (o : Option (List α)) (s1 : BubbleSort α)
    (h : next s = some (o, s1)) :
    s1.items = s.items ∨
    ∃ P t a b, b < a ∧ s.items = P ++ a :: b :: t ∧
      s1.items = P ++ b :: a :: t := by
  rcases next_inv s o s1 h with ⟨_, _, hs1⟩ | ⟨_, _, _, _, _, hs1⟩ |
    ⟨i, ds0, _, _, _, P, t, a, b, hl, _, ⟨hba, _, hs1⟩ | ⟨_, _, hs1⟩⟩
  · exact Or.inl (by rw [hs1])
  · exact Or.inl (by rw [hs1])
  · exact Or.inr ⟨P, t, a, b, hba, hl, by rw [hs1]⟩
  · exact Or.inl (by rw [hs1])

lemma next_inversions (s : BubbleSort α) (o : Option (List α)) (s1 : BubbleSort α)
    (h : next s = some (o, s1)) :
    (s1.items = s.items ∧ inversions s1.items = inversions s.items) ∨
    (s1.items ≠ s.items ∧ inversions s1.items + 1 = inversions s.items) := by
  rcases next_items_cases s o s1 h with heq | ⟨P, t, a, b, hba, hl, hl1⟩
  · exact Or.inl ⟨heq, by rw [heq]⟩
  · refine Or.inr ⟨?_, ?_⟩
    · rw [hl, hl1]
      intro hcontra
      have := List.append_cancel_left hcontra
      have hab : b = a := by injection this
      rw [hab] at hba
      exact lt_irrefl a hba
    · rw [hl, hl1]
      exact inversions_swap P t a b hba

lemma swapsDuring_succ_of_next (s : BubbleSort α) (o : Option (List α))
    (s1 : BubbleSort α) (h : next s = some (o, s1)) (n : Nat) :
    swapsDuring s (n + 1) =
      (swapsDuring s1 n).map (fun m => (if s1.items = s.items then 0 else 1) + m) := by
  have hu : swapsDuring s (n + 1) =
      match next s with
      | some (_, s2) =>
        (swapsDuring s2 n).map (fun m => (if s2.items = s.items then 0 else 1) + m)
      | none => none := rfl
  rw [hu, h]

lemma steps_succ_inv (s s1 : BubbleSort α) (k : Nat)
    (h : steps s (k + 1) = some s1) :
    ∃ o s2, next s = some (o, s2) ∧ steps s2 k = some s1 := by
  cases hnx : next s with
  | none =>
    have hu : steps s (k + 1) =
        match next s with
        | some (_, s2) => steps s2 k
        | none => none := rfl
    rw [hu, hnx] at h
    exact absurd h (by simp)
  | some p =>
    cases p with
    | mk o s2 => exact ⟨o, s2, rfl, by rw [← steps_succ_of_next s o s2 hnx k]; exact h⟩

/-- The number of swaps over any completed run of calls equals the drop
in the inversion count. -/
lemma swapsDuring_eq : ∀ (k : Nat) (s s1 : BubbleSort α), steps s k = some s1 →
    inversions s1.items ≤ inversions s.items ∧
    swapsDuring s k = some (inversions s.items - inversions s1.items) := by
  intro k
  induction k with
  | zero =>
    intro s s1 h
    have hs : s1 = s := by injection h.symm
    rw [hs]
    exact ⟨le_refl _, by simp [swapsDuring]⟩
  | succ k ih =>
    intro s s1 h
    obtain ⟨o, s2, hnx, hsteps⟩ := steps_succ_inv s s1 k h
    obtain ⟨hle, hsw⟩ := ih s2 s1 hsteps
    rw [swapsDuring_succ_of_next s o s2 hnx k, hsw]
    rcases next_inversions s o s2 hnx with ⟨heq, hinv⟩ | ⟨hne, hinv⟩
    · rw [if_pos heq]
      simp only [Option.map_some', Nat.zero_add]
      exact ⟨by omega, by rw [hinv]⟩
    · rw [if_neg hne]
      simp only [Option.map_some']
      refine ⟨by omega, ?_⟩
      congr 1
      omega

end BubbleSort

section PassLemmas

variable {α : Type} [LinearOrder α]

lemma bpassAux_perm : ∀ (t : List α) (a : α) (ds : Bool),
    (bpassAux a t ds).1.Perm (a :: t) := by
  intro t
  induction t with
  | nil => intro a ds; exact List.Perm.refl _
  | cons b t' ih =>
    intro a ds
    by_cases hba : b < a
    · simp only [bpassAux, if_pos hba]
      exact (List.Perm.cons b (ih a true)).trans (List.Perm.swap a b t')
    · simp only [bpassAux, if_neg hba]
      exact List.Perm.cons a (ih b ds)

lemma bpassAux_length (t : List α) (a : α) (ds : Bool) :
    (bpassAux a t ds).1.length = t.length + 1 := by
  have := (bpassAux_perm t a ds).length_eq
  simpa using this

lemma bpassAux_mem (t : List α) (a : α) (ds : Bool) (x : α) :
    x ∈ (bpassAux a t ds).1 ↔ x ∈ a :: t :=
  (bpassAux_perm t a ds).mem_iff

lemma bpassAux_flag_true : ∀ (t : List α) (a : α),
    (bpassAux a t true).2 = true := by
  intro t
  induction t with
  | nil => intro a; rfl
  | cons b t' ih =>
    intro a
    by_cases hba : b < a
    · simp only [bpassAux, if_pos hba]
      exact ih a
    · simp only [bpassAux, if_neg hba]
      exact ih b

lemma bpassAux_flag : ∀ (t : List α) (a : α) (ds : Bool),
    (bpassAux a t ds).2 = (ds || !sortedB (a :: t)) := by
  intro t
  induction t with
  | nil => intro a ds; simp [bpassAux, sortedB]
  | cons b t' ih =>
    intro a ds
    by_cases hba : b < a
    · have hab : (decide (a ≤ b)) = false := by
        simpa using not_le_of_lt hba
      simp only [bpassAux, if_pos hba, sortedB, hab, Bool.false_and,
        Bool.not_false, Bool.or_true]
      exact bpassAux_flag_true t' a
    · have hab : (decide (a ≤ b)) = true := by
        simpa using le_of_not_lt hba
      simp only [bpassAux, if_neg hba, sortedB, hab, Bool.true_and]
      exact ih b ds

lemma bpassAux_sorted : ∀ (t : List α) (a : α) (ds : Bool),
    sortedB (a :: t) = true → bpassAux a t ds = (a :: t, ds) := by
  intro t
  induction t with
  | nil => intro a ds _; rfl
  | cons b t' ih =>
    intro a ds h
    simp only [sortedB, Bool.and_eq_true, decide_eq_true_eq] at h
    have hnba : ¬b < a := not_lt.mpr h.1
    have hsb : sortedB (b :: t') = true := by
      simpa [sortedB] using h.2
    simp [bpassAux, hnba, ih b ds hsb]

lemma sortedB_cons_of_le (a : α) (v : List α) (h1 : ∀ y ∈ v, a ≤ y)
    (h2 : sortedB v = true) : sortedB (a :: v) = true := by
  cases v with
  | nil => rfl
  | cons b v' =>
    simp only [sortedB, Bool.and_eq_true, decide_eq_true_eq]
    exact ⟨h1 b (List.mem_cons_self b v'), h2⟩

lemma sortedB_append_single : ∀ (w : List α) (M : α),
    sortedB w = true → (∀ x ∈ w, x ≤ M) → sortedB (w ++ [M]) = true := by
  intro w
  induction w with
  | nil => intro M _ _; rfl
  | cons a w' ih =>
    intro M h hle
    cases w' with
    | nil =>
      simp only [List.cons_append, List.nil_append, sortedB, Bool.and_eq_true,
        decide_eq_true_eq]
      exact ⟨hle a (List.mem_cons_self a []), trivial⟩
    | cons b w'' =>
      simp only [sortedB, Bool.and_eq_true, decide_eq_true_eq] at h
      have := ih M h.2 (fun x hx => hle x (List.mem_cons_of_mem a hx))
      simp only [List.cons_append, sortedB, Bool.and_eq_true, decide_eq_true_eq]
      exact ⟨h.1, by simpa using this⟩

lemma bpassAux_append_big : ∀ (t : List α) (a : α) (ds : Bool) (v : List α),
    (∀ x ∈ a :: t, ∀ y ∈ v, x ≤ y) → sortedB v = true →
    bpassAux a (t ++ v) ds = ((bpassAux a t ds).1 ++ v, (bpassAux a t ds).2) := by
  intro t
  induction t with
  | nil =>
    intro a ds v h1 h2
    have hav : sortedB (a :: v) = true :=
      sortedB_cons_of_le a v (h1 a (List.mem_cons_self a [])) h2
    simp [bpassAux, bpassAux_sorted v a ds hav]
  | cons b t' ih =>
    intro a ds v h1 h2
    by_cases hba : b < a
    · have hsub : ∀ x ∈ a :: t', ∀ y ∈ v, x ≤ y := by
        intro x hx
        rcases List.mem_cons.mp hx with hxa | hxt
        · exact h1 x (by rw [hxa]; exact List.mem_cons_self a (b :: t'))
        · exact h1 x (List.mem_cons_of_mem a (List.mem_cons_of_mem b hxt))
      simp only [List.cons_append, bpassAux, if_pos hba, List.append_eq]
      rw [ih a true v hsub h2]
    · have hsub : ∀ x ∈ b :: t', ∀ y ∈ v, x ≤ y :=
        fun x hx => h1 x (List.mem_cons_of_mem a hx)
      simp only [List.cons_append, bpassAux, if_neg hba, List.append_eq]
      rw [ih b ds v hsub h2]

lemma bpassAux_split : ∀ (t : List α) (a : α) (ds : Bool),
    ∃ u M, (bpassAux a t ds).1 = u ++ [M] ∧ ∀ x ∈ a :: t, x ≤ M := by
  intro t
  induction t with
  | nil =>
    intro a ds
    exact ⟨[], a, rfl, by intro x hx; simp at hx; rw [hx]⟩
  | cons b t' ih =>
    intro a ds
    by_cases hba : b < a
    · obtain ⟨u, M, hu, hM⟩ := ih a true
      refine ⟨b :: u, M, by simp [bpassAux, if_pos hba, hu], ?_⟩
      intro x hx
      rcases List.mem_cons.mp hx with hxa | hx2
      · exact hxa ▸ hM a (List.mem_cons_self a t')
      · rcases List.mem_cons.mp hx2 with hxb | hxt
        · exact hxb ▸ le_of_lt (lt_of_lt_of_le hba (hM a (List.mem_cons_self a t')))
        · exact hM x (List.mem_cons_of_mem a hxt)
    · obtain ⟨u, M, hu, hM⟩ := ih b ds
      refine ⟨a :: u, M, by simp [bpassAux, if_neg hba, hu], ?_⟩
      intro x hx
      rcases List.mem_cons.mp hx with hxa | hx2
      · exact hxa ▸ le_trans (le_of_not_lt hba) (hM b (List.mem_cons_self b t'))
      · exact hM x hx2

lemma bp_perm (l : List α) : (bp l).Perm l := by
  cases l with
  | nil => exact List.Perm.refl _
  | cons a t => exact bpassAux_perm t a false

lemma bp_length (l : List α) : (bp l).length = l.length :=
  (bp_perm l).length_eq

lemma bp_mem (l : List α) (x : α) : x ∈ bp l ↔ x ∈ l :=
  (bp_perm l).mem_iff

lemma bp_sorted (l : List α) (h : sortedB l = true) : bp l = l := by
  cases l with
  | nil => rfl
  | cons a t => simp [bp, bpassAux_sorted t a false h]

lemma bp_append_big (w v : List α) (h1 : ∀ x ∈ w, ∀ y ∈ v, x ≤ y)
    (h2 : sortedB v = true) : bp (w ++ v) = bp w ++ v := by
  cases w with
  | nil =>
    simp only [List.nil_append]
    rw [bp_sorted v h2]
    rfl
  | cons a t =>
    simp only [List.cons_append, bp]
    rw [bpassAux_append_big t a false v h1 h2]

lemma bpN_perm : ∀ (k : Nat) (l : List α), (bpN k l).Perm l := by
  intro k
  induction k with
  | zero => intro l; exact List.Perm.refl _
  | succ k ih => intro l; exact (ih (bp l)).trans (bp_perm l)

lemma bpN_append_big : ∀ (k : Nat) (w v : List α),
    (∀ x ∈ w, ∀ y ∈ v, x ≤ y) → sortedB v = true →
    bpN k (w ++ v) = bpN k w ++ v := by
  intro k
  induction k with
  | zero => intro w v _ _; rfl
  | succ k ih =>
    intro w v h1 h2
    have hstep : bpN (k + 1) (w ++ v) = bpN k (bp w ++ v) := by
      simp only [bpN]
      rw [bp_append_big w v h1 h2]
    rw [hstep, ih (bp w) v (fun x hx => h1 x ((bp_mem w x).mp hx)) h2]
    rfl

lemma bpN_sorts : ∀ (n : Nat) (l : List α),
    l.length ≤ n → sortedB (bpN n l) = true := by
  intro n
  induction n with
  | zero =>
    intro l hl
    have : l = [] := List.length_eq_zero.mp (Nat.le_zero.mp hl)
    rw [this]
    rfl
  | succ n ih =>
    intro l hl
    cases hl0 : l with
    | nil =>
      have hbp : bp ([] : List α) = [] := rfl
      have : bpN (n + 1) ([] : List α) = bpN n [] := by simp [bpN, hbp]
      rw [this]
      exact ih [] (by simp)
    | cons a t =>
      obtain ⟨u, M, hu, hM⟩ := bpassAux_split t a false
      have hbp : bp (a :: t) = u ++ [M] := hu
      have hulen : u.length ≤ n := by
        have h1 : (bp (a :: t)).length = (a :: t).length := bp_length _
        rw [hbp] at h1
        simp at h1
        rw [hl0] at hl
        simp at hl
        omega
      have humem : ∀ x ∈ u, x ∈ a :: t := by
        intro x hx
        have : x ∈ bp (a :: t) := by rw [hbp]; exact List.mem_append_left _ hx
        exact (bp_mem _ x).mp this
      have hule : ∀ x ∈ u, ∀ y ∈ [M], x ≤ y := by
        intro x hx y hy
        have hyM : y = M := by simpa using hy
        rw [hyM]
        exact hM x (humem x hx)
      have hchain : bpN (n + 1) (a :: t) = bpN n u ++ [M] := by
        have h1 : bpN (n + 1) (a :: t) = bpN n (bp (a :: t)) := rfl
        rw [h1, hbp, bpN_append_big n u [M] hule rfl]
      rw [hchain]
      apply sortedB_append_single
      · exact ih u hulen
      · intro x hx
        exact hM x (humem x ((bpN_perm n u).mem_iff.mp hx))

end PassLemmas

namespace BubbleSort

variable {α : Type} [LinearOrder α]

lemma steps_congr_next (s s' : BubbleSort α) (h : next s = next s') (k : Nat) :
    steps s (k + 1) = steps s' (k + 1) := by
  have hu1 : steps s (k + 1) =
      match next s with
      | some (_, s2) => steps s2 k
      | none => none := rfl
  have hu2 : steps s' (k + 1) =
      match next s' with
      | some (_, s2) => steps s2 k
      | none => none := rfl
  rw [hu1, hu2, h]

/-- Mid-pass simulation: from cursor `P.length` on items `P ++ a :: t`
with `done = false`, running `t.length` calls performs exactly the rest
of the bubble pass and parks the cursor at the last index. -/
lemma passSim : ∀ (t : List α) (a : α) (P : List α) (ds : Bool),
    steps { items := P ++ a :: t, did_swap := ds, index := P.length, done := false }
        t.length =
      some { items := P ++ (bpassAux a t ds).1, did_swap := (bpassAux a t ds).2,
             index := (P ++ a :: t).length - 1, done := false } := by
  intro t
  induction t with
  | nil =>
    intro a P ds
    simp only [List.length_nil, steps, bpassAux]
    have hidx : (P ++ [a]).length - 1 = P.length := by simp
    rw [hidx]
  | cons b t' ih =>
    intro a P ds
    have hnx := next_mid
      { items := P ++ a :: b :: t', did_swap := ds, index := P.length, done := false }
      (by simp) (by simp)
    rw [compareAt_eq _ P t' a b rfl rfl] at hnx
    simp only [List.length_cons]
    by_cases hba : b < a
    · rw [if_pos hba] at hnx
      have hstep := steps_succ_of_next _ _ _ hnx t'.length
      have hih := ih a (P ++ [b]) true
      have hS1 :
          ({ items := (P ++ [b]) ++ a :: t', did_swap := true,
             index := (P ++ [b]).length, done := false } : BubbleSort α) =
          { items := P ++ b :: a :: t', did_swap := true,
            index := P.length + 1, done := false } := by
        simp
      rw [hS1] at hih
      rw [hstep, hih]
      simp only [bpassAux, if_pos hba, Option.some.injEq, mk.injEq]
      refine ⟨by simp, trivial, by simp, trivial⟩
    · rw [if_neg hba] at hnx
      have hstep := steps_succ_of_next _ _ _ hnx t'.length
      have hih := ih b (P ++ [a]) ds
      have hS1 :
          ({ items := (P ++ [a]) ++ b :: t', did_swap := ds,
             index := (P ++ [a]).length, done := false } : BubbleSort α) =
          { items := P ++ a :: b :: t', did_swap := ds,
            index := P.length + 1, done := false } := by
        simp
      rw [hS1] at hih
      rw [hstep, hih]
      simp only [bpassAux, if_neg hba, Option.some.injEq, mk.injEq]
      refine ⟨by simp, trivial, by simp, trivial⟩

/-- A fresh pass (cursor 0, flag clear) over `a :: t` takes `t.length`
calls, producing the functional pass result and flag. -/
lemma passRun (a : α) (t : List α) :
    steps { items := a :: t, did_swap := false, index := 0, done := false } t.length =
      some { items := bp (a :: t), did_swap := !sortedB (a :: t),
             index := (a :: t).length - 1, done := false } := by
  have h := passSim t a [] false
  simp only [List.nil_append, List.length_nil] at h
  rw [h]
  have hflag : (bpassAux a t false).2 = !sortedB (a :: t) := by
    rw [bpassAux_flag]
    simp
  rw [show bp (a :: t) = (bpassAux a t false).1 from rfl, hflag]

omit [LinearOrder α] in
lemma new_eq (l : List α) :
    new l = { items := l, did_swap := false, index := 0, done := false } := rfl

/-- A fresh pass over an already-sorted list ends, one call after its
last comparison, in the terminal state. -/
lemma sorted_pass_done (a : α) (t : List α) (hsort : sortedB (a :: t) = true) :
    steps { items := a :: t, did_swap := false, index := 0, done := false }
        (t.length + 1) =
      some { items := a :: t, did_swap := false, index := (a :: t).length - 1,
             done := true } := by
  have hE := passRun a t
  rw [bp_sorted _ hsort, hsort] at hE
  simp only [Bool.not_true] at hE
  have hnx := next_terminal
    { items := a :: t, did_swap := false, index := (a :: t).length - 1, done := false }
    (by simp) (by simp) rfl
  rw [steps_add _ t.length 1, hE]
  simp only [Option.some_bind]
  rw [steps_succ_of_next _ _ _ hnx 0]
  rfl

/-- If `k` functional passes sort the list, the engine is terminal
after `(k + 1) * (n - 1) + 1` calls. -/
lemma term_of_bpN : ∀ (k : Nat) (l : List α), 2 ≤ l.length →
    sortedB (bpN k l) = true →
    ∃ s1, steps { items := l, did_swap := false, index := 0, done := false }
        ((k + 1) * (l.length - 1) + 1) = some s1 ∧ s1.done = true := by
  intro k
  induction k with
  | zero =>
    intro l hlen hsort
    cases l with
    | nil => simp at hlen
    | cons a t =>
      have hcount : (0 + 1) * ((a :: t).length - 1) + 1 = t.length + 1 := by
        simp
      rw [hcount]
      exact ⟨_, sorted_pass_done a t hsort, rfl⟩
  | succ k ih =>
    intro l hlen hsort
    cases l with
    | nil => simp at hlen
    | cons a t =>
      have hm : (a :: t).length - 1 = t.length := by simp
      rw [hm]
      by_cases hs : sortedB (a :: t) = true
      · have hdone := sorted_pass_done a t hs
        have hcount : (k + 1 + 1) * t.length + 1 = (t.length + 1) + (k + 1) * t.length := by
          have h2 : (k + 1 + 1) * t.length = (k + 1) * t.length + t.length := by
            ring
          omega
        rw [hcount, steps_add _ (t.length + 1) ((k + 1) * t.length), hdone]
        simp only [Option.some_bind]
        exact ⟨_, steps_fixed _ (Or.inr rfl) _, rfl⟩
      · have hE := passRun a t
        rw [hm] at hE
        have hsf : sortedB (a :: t) = false := by
          revert hs
          cases sortedB (a :: t) <;> simp
        rw [hsf] at hE
        simp only [Bool.not_false] at hE
        have hbplen : (bp (a :: t)).length = t.length + 1 := by
          rw [bp_length]; rfl
        have hbpne : bp (a :: t) ≠ [] := by
          intro hx
          rw [hx] at hbplen
          simp at hbplen
        have htlen : 1 ≤ t.length := by
          simp at hlen
          omega
        have hEnext : next { items := bp (a :: t), did_swap := true, index := t.length, done := false } =
            next { items := bp (a :: t), did_swap := false, index := 0, done := false } := by
          rw [next_reset _ (by simp [hbpne]) (by rw [hbplen]; simp) (by simp),
            next_mid _ (by simp [hbpne]) (by rw [hbplen]; show ¬(t.length + 1 - 1 ≤ 0); omega)]
        have hIH := ih (bp (a :: t)) (by omega) hsort
        rw [hbplen] at hIH
        have hm2 : t.length + 1 - 1 = t.length := by omega
        rw [hm2] at hIH
        obtain ⟨s1, hst1, hdone1⟩ := hIH
        refine ⟨s1, ?_, hdone1⟩
        have hcount : (k + 1 + 1) * t.length + 1 =
            t.length + ((k + 1) * t.length + 1) := by
          have h2 : (k + 1 + 1) * t.length = (k + 1) * t.length + t.length := by
            ring
          omega
        rw [hcount, steps_add _ t.length ((k + 1) * t.length + 1), hE]
        simp only [Option.some_bind]
        rw [steps_congr_next _ _ hEnext ((k + 1) * t.length)]
        exact hst1

/-- Termination: on any nonempty input of length `n` the engine reaches
the terminal state within `n * n` calls. -/
lemma engine_done_within (l : List α) (hne : l ≠ []) :
    ∃ s1, steps (new l) (l.length * l.length) = some s1 ∧ s1.done = true := by
  cases l with
  | nil => exact absurd rfl hne
  | cons a t =>
    cases t with
    | nil =>
      have hnx := next_terminal (new [a]) (by simp [new]) (by simp [new]) rfl
      refine ⟨{ items := [a], did_swap := false, index := 0, done := true }, ?_, rfl⟩
      show steps (new [a]) 1 = _
      rw [steps_succ_of_next _ _ _ hnx 0]
      rfl
    | cons b t' =>
      have hlen : 2 ≤ (a :: b :: t').length := by simp
      have hsort := bpN_sorts (a :: b :: t').length (a :: b :: t') (le_refl _)
      obtain ⟨s1, hst, hdone⟩ :=
        term_of_bpN (a :: b :: t').length (a :: b :: t') hlen hsort
      refine ⟨s1, ?_, hdone⟩
      rw [new_eq]
      have hn : (a :: b :: t').length = t'.length + 2 := by simp
      have hcount : ((a :: b :: t').length + 1) * ((a :: b :: t').length - 1) + 1 =
          (a :: b :: t').length * (a :: b :: t').length := by
        rw [hn]
        have h1 : t'.length + 2 - 1 = t'.length + 1 := rfl
        rw [h1]
        ring
      rw [← hcount]
      exact hst

end BubbleSort

section MoreSorted

variable {α : Type} [LinearOrder α]

lemma sortedB_tail (x : α) (xs : List α) (h : sortedB (x :: xs) = true) :
    sortedB xs = true := by
  cases xs with
  | nil => rfl
  | cons y ys =>
    simp only [sortedB, Bool.and_eq_true] at h
    exact h.2

lemma sortedB_append_adj : ∀ (P : List α) (a b : α) (t : List α),
    sortedB (P ++ a :: b :: t) = true → a ≤ b := by
  intro P
  induction P with
  | nil =>
    intro a b t h
    simp only [List.nil_append, sortedB, Bool.and_eq_true, decide_eq_true_eq] at h
    exact h.1
  | cons p P ih =>
    intro a b t h
    exact ih a b t (sortedB_tail p _ h)

lemma sortedB_get_adj (l : List α) (j : Nat) (x y : α) (h : sortedB l = true)
    (hx : l.get? j = some x) (hy : l.get? (j + 1) = some y) : x ≤ y := by
  obtain ⟨P, t, hl, _⟩ := getTwoSplit j l x y hx hy
  rw [hl] at h
  exact sortedB_append_adj P x y t h

end MoreSorted

namespace BubbleSort

variable {α : Type} [LinearOrder α]

/-- Every state reached from a freshly constructed engine satisfies the
invariant. -/
lemma inv_of_steps (l : List α) (k : Nat) (s1 : BubbleSort α)
    (h : steps (new l) k = some s1) : Inv s1 := by
  obtain ⟨s1', hst', hinv', _⟩ := steps_reach k (new l) (inv_new l)
  rw [h] at hst'
  have heq : s1 = s1' := by injection hst'
  rw [heq]
  exact hinv'

end BubbleSort

namespace Claims

open BubbleSort

variable {α : Type} [LinearOrder α]

/-- C1: from any reachable non-terminal state, the call marks the
engine terminal exactly when a full pass has just completed (cursor at
the final index) with the swap flag clear; that call returns the
current items as its final snapshot, and those items are sorted
non-decreasing. -/
theorem c1_terminal_iff_clean_pass (l : List α) (k : Nat) (s1 : BubbleSort α)
    (hst : steps (new l) k = some s1) (hnd : s1.done = false) :
    ((∃ o s2, next s1 = some (o, s2) ∧ s2.done = true) ↔
      (s1.items ≠ [] ∧ s1.items.length - 1 ≤ s1.index ∧ s1.did_swap = false)) ∧
    (∀ o s2, next s1 = some (o, s2) → s2.done = true →
      o = some s1.items ∧ s2.items = s1.items ∧
        List.Sorted (· ≤ ·) s1.items) := by
  have hinv : Inv s1 := inv_of_steps l k s1 hst
  constructor
  · constructor
    · rintro ⟨o, s2, hnx, hd2⟩
      rcases next_inv s1 o s2 hnx with ⟨_, _, hs2⟩ | ⟨hne, _, h2, h3, _, _⟩ |
        ⟨i, ds0, _, _, _, P, t, a, b, _, _, ⟨_, _, hs2⟩ | ⟨_, _, hs2⟩⟩
      · rw [hs2, hnd] at hd2
        exact absurd hd2 (by simp)
      · exact ⟨hne, h2, h3⟩
      · rw [hs2] at hd2
        exact absurd hd2 (by simp)
      · rw [hs2] at hd2
        exact absurd hd2 (by simp)
    · rintro ⟨hne, h2, h3⟩
      have h0 : ¬(s1.items = [] ∨ s1.done = true) := by
        rintro (hc | hc)
        · exact hne hc
        · rw [hnd] at hc
          exact absurd hc (by simp)
      exact ⟨some s1.items, { s1 with done := true },
        next_terminal s1 h0 h2 h3, rfl⟩
  · intro o s2 hnx hd2
    rcases next_inv s1 o s2 hnx with ⟨_, _, hs2⟩ | ⟨hne, _, h2, h3, ho, hs2⟩ |
      ⟨i, ds0, _, _, _, P, t, a, b, _, _, ⟨_, _, hs2⟩ | ⟨_, _, hs2⟩⟩
    · rw [hs2, hnd] at hd2
      exact absurd hd2 (by simp)
    · have hsorted : sortedB s2.items = true := (inv_step s1 o s2 hinv hnx).2.2 hd2
      rw [hs2] at hsorted
      exact ⟨ho, by rw [hs2], (sortedB_iff_sorted s1.items).mp hsorted⟩
    · rw [hs2] at hd2
      exact absurd hd2 (by simp)
    · rw [hs2] at hd2
      exact absurd hd2 (by simp)

/-- Witness for C1 at the concrete input `[1]` after 0 calls. -/
theorem c1_witness :
    ∃ o s2, next (new ([1] : List Nat)) = some (o, s2) ∧ s2.done = true :=
  ((c1_terminal_iff_clean_pass [1] 0 (new [1]) rfl rfl).1).mpr (by decide)

/-- C3: a non-terminal call with the cursor strictly before the last
index compares the items at `index` and `index + 1`, swaps them and
sets the swap flag exactly when the first orders strictly after the
second, advances the cursor, and yields a snapshot equal to the
resulting items; a call with the cursor at the end of a pass in which a
swap occurred behaves exactly as the call on the state with cursor 0
and swap flag cleared (the reset falls through to the next comparison
in the same call). -/
theorem c3_step_semantics (s : BubbleSort α) (a b : α)
    (hne : s.items ≠ []) (hnd : s.done = false) :
    (s.index + 1 < s.items.length →
      s.items.get? s.index = some a → s.items.get? (s.index + 1) = some b →
      next s = some
        (some (if b < a then (s.items.set s.index b).set (s.index + 1) a else s.items),
          { items := if b < a then (s.items.set s.index b).set (s.index + 1) a else s.items,
            did_swap := if b < a then true else s.did_swap,
            index := s.index + 1, done := false })) ∧
    (s.items.length - 1 ≤ s.index → s.did_swap = true → 2 ≤ s.items.length →
      next s = next { s with index := 0, did_swap := false }) := by
  have h0 : ¬(s.items = [] ∨ s.done = true) := by
    rintro (hc | hc)
    · exact hne hc
    · rw [hnd] at hc
      exact absurd hc (by simp)
  constructor
  · intro hidx hga hgb
    have h2 : ¬(s.items.length - 1 ≤ s.index) := by omega
    rw [next_mid s h0 h2]
    unfold compareAt
    rw [hga, hgb]
    by_cases hba : b < a
    · simp [hba, hnd]
    · simp [hba, hnd]
  · intro h2 h3 hlen
    rw [next_reset s h0 h2 (by rw [h3]; simp)]
    rw [next_mid { s with index := 0, did_swap := false } h0
      (by show ¬(s.items.length - 1 ≤ 0); omega)]

/-- Witness for C3 at the concrete state `new [2, 1]`. -/
theorem c3_witness :
    next (new ([2, 1] : List Nat)) =
      some (some [1, 2], { items := [1, 2], did_swap := true, index := 1, done := false }) := by
  rw [(c3_step_semantics (new ([2, 1] : List Nat)) 2 1 (by decide) rfl).1
    (by decide) (by decide) (by decide)]
  decide

/-- C4: the engine is exhausted within `n * n` calls on any input of
length `n` (in particular after finitely many calls); each call makes
at most one key comparison and performs at most one (adjacent) swap. -/
theorem c4_quadratic_bound (l : List α) :
    (∃ s1, steps (new l) (l.length * l.length) = some s1 ∧
      next s1 = some (none, s1)) ∧
    (∀ s : BubbleSort α, comparisons s ≤ 1) ∧
    (∀ k s1 o s2, steps (new l) k = some s1 → next s1 = some (o, s2) →
      s2.items = s1.items ∨
        ∃ P t a b, b < a ∧ s1.items = P ++ a :: b :: t ∧
          s2.items = P ++ b :: a :: t) := by
  refine ⟨?_, ?_, ?_⟩
  · by_cases hne : l = []
    · subst hne
      exact ⟨new [], rfl, next_stop _ (Or.inl rfl)⟩
    · obtain ⟨s1, hst, hdone⟩ := engine_done_within l hne
      exact ⟨s1, hst, next_stop s1 (Or.inr hdone)⟩
  · intro s
    by_cases h1 : s.items = [] ∨ s.done = true
    · simp [comparisons, h1]
    · by_cases h2 : s.items.length - 1 ≤ s.index
      · by_cases h3 : s.did_swap = false
        · simp [comparisons, h1, h2, h3]
        · simp [comparisons, h1, h2, h3]
      · simp [comparisons, h1, h2]
  · intro k s1 o s2 _ hnx
    exact next_items_cases s1 o s2 hnx

/-- C6: on an input already sorted non-decreasing, the engine walks one
full pass without swapping (items, flag unchanged; cursor advancing)
and the very next call — call number `n` — makes it terminal; zero
swaps are performed. -/
theorem c6_sorted_one_pass (l : List α) (hs : List.Sorted (· ≤ ·) l) :
    (∀ k, k ≤ l.length - 1 →
      steps (new l) k =
        some { items := l, did_swap := false, index := k, done := false }) ∧
    (l ≠ [] →
      steps (new l) l.length =
        some { items := l, did_swap := false, index := l.length - 1, done := true }) ∧
    swapsDuring (new l) l.length = some 0 := by
  have hsb : sortedB l = true := (sortedB_iff_sorted l).mpr hs
  have partA : ∀ k, k ≤ l.length - 1 →
      steps (new l) k =
        some { items := l, did_swap := false, index := k, done := false } := by
    intro k
    induction k with
    | zero => intro _; rfl
    | succ k ih =>
      intro hk
      have hprev := ih (by omega)
      have hklen : k + 1 < l.length := by omega
      obtain ⟨x, hx⟩ : ∃ x, l.get? k = some x := ⟨_, List.get?_eq_get (by omega)⟩
      obtain ⟨y, hy⟩ : ∃ y, l.get? (k + 1) = some y := ⟨_, List.get?_eq_get hklen⟩
      have hxy : x ≤ y := sortedB_get_adj l k x y hsb hx hy
      obtain ⟨P, t, hlP, hPl⟩ := getTwoSplit k l x y hx hy
      have hlne : l ≠ [] := by
        intro hc
        rw [hc] at hklen
        simp at hklen
      have hnx := next_mid
        { items := l, did_swap := false, index := k, done := false }
        (by simp [hlne]) (by show ¬(l.length - 1 ≤ k); omega)
      rw [compareAt_eq _ P t x y hlP hPl.symm] at hnx
      rw [if_neg (not_lt.mpr hxy)] at hnx
      rw [steps_add (new l) k 1, hprev]
      simp only [Option.some_bind]
      rw [steps_succ_of_next _ _ _ hnx 0]
      rfl
  have partB : l ≠ [] →
      steps (new l) l.length =
        some { items := l, did_swap := false, index := l.length - 1, done := true } := by
    intro hne
    have hlen1 : 1 ≤ l.length := by
      cases hl : l with
      | nil => exact absurd hl hne
      | cons a t => simp [hl]
    have hE := partA (l.length - 1) (le_refl _)
    have hnx := next_terminal
      { items := l, did_swap := false, index := l.length - 1, done := false }
      (by simp [hne]) (by simp) rfl
    have hsplit : l.length = (l.length - 1) + 1 := by omega
    rw [hsplit, steps_add _ (l.length - 1) 1, hE]
    simp only [Option.some_bind]
    rw [steps_succ_of_next _ _ _ hnx 0]
    rfl
  refine ⟨partA, partB, ?_⟩
  by_cases hne : l = []
  · subst hne
    rfl
  · obtain ⟨_, hsw⟩ := swapsDuring_eq l.length (new l) _ (partB hne)
    rw [hsw]
    have h0 : inversions l = 0 := inversions_of_sortedB l hsb
    simp [new, h0]

/-- Witness for C6 at the concrete input `[1, 2]`. -/
theorem c6_witness :
    steps (new ([1, 2] : List Nat)) ([1, 2] : List Nat).length =
      some { items := [1, 2], did_swap := false, index := 1, done := true } := by
  rw [(c6_sorted_one_pass ([1, 2] : List Nat) (by decide)).2.1 (by decide)]
  decide

/-- C7: on a strictly descending input of length `n` the engine
performs exactly `n * (n - 1) / 2` swaps: that is the swap count at the
`n * n`-call horizon (by which it is exhausted), and the count at any
point at or after reaching the terminal state. -/
theorem c7_descending_worst_case (l : List α) (hd : descB l = true) :
    swapsDuring (new l) (l.length * l.length) =
      some (l.length * (l.length - 1) / 2) ∧
    (∀ k s1, steps (new l) k = some s1 → s1.done = true →
      swapsDuring (new l) k = some (l.length * (l.length - 1) / 2)) := by
  have hinvl : inversions l = l.length * (l.length - 1) / 2 :=
    inversions_of_descB l hd
  have key : ∀ k s1, steps (new l) k = some s1 → s1.done = true →
      swapsDuring (new l) k = some (l.length * (l.length - 1) / 2) := by
    intro k s1 hst hdone
    obtain ⟨_, hsw⟩ := swapsDuring_eq k (new l) s1 hst
    have hs1sorted := (inv_of_steps l k s1 hst).2.2 hdone
    have hz : inversions s1.items = 0 := inversions_of_sortedB _ hs1sorted
    rw [hsw]
    simp [new, hz, hinvl]
  refine ⟨?_, key⟩
  by_cases hne : l = []
  · subst hne
    simp [swapsDuring]
  · obtain ⟨s1, hst, hdone⟩ := engine_done_within l hne
    exact key _ s1 hst hdone

/-- Witness for C7 at the concrete input `[2, 1]`. -/
theorem c7_witness :
    swapsDuring (new ([2, 1] : List Nat))
        (([2, 1] : List Nat).length * ([2, 1] : List Nat).length) = some 1 := by
  rw [(c7_descending_worst_case ([2, 1] : List Nat) (by decide)).1]
  decide

/-- C10: every call leaves the items unchanged (and the inversion count
unchanged) or applies exactly one adjacent transposition of a strictly
out-of-order pair (and the inversion count drops by exactly one); hence
inversions never increase. -/
theorem c10_swap_decreases_inversions (s : BubbleSort α) (o : Option (List α))
    (s1 : BubbleSort α) (h : next s = some (o, s1)) :
    ((s1.items = s.items ∧ inversions s1.items = inversions s.items) ∨
      ((∃ P t a b, b < a ∧ s.items = P ++ a :: b :: t ∧
          s1.items = P ++ b :: a :: t) ∧
        inversions s1.items + 1 = inversions s.items)) ∧
    inversions s1.items ≤ inversions s.items := by
  rcases next_items_cases s o s1 h with heq | ⟨P, t, a, b, hba, hl, hl1⟩
  · exact ⟨Or.inl ⟨heq, by rw [heq]⟩, le_of_eq (by rw [heq])⟩
  · have hdec : inversions s1.items + 1 = inversions s.items := by
      rw [hl, hl1]
      exact inversions_swap P t a b hba
    exact ⟨Or.inr ⟨⟨P, t, a, b, hba, hl, hl1⟩, hdec⟩, by omega⟩

/-- Witness for C10 at the concrete state `new [2, 1]`: its one swap
call decreases the inversion count. -/
theorem c10_witness :
    inversions ({ items := [1, 2], did_swap := true, index := 1, done := false } : BubbleSort Nat).items + 1 =
      inversions (new ([2, 1] : List Nat)).items ∧
    inversions ({ items := [1, 2], did_swap := true, index := 1, done := false } : BubbleSort Nat).items ≤
      inversions (new ([2, 1] : List Nat)).items := by
  have h := c10_swap_decreases_inversions (new ([2, 1] : List Nat)) (some [1, 2])
    { items := [1, 2], did_swap := true, index := 1, done := false } (by decide)
  refine ⟨?_, h.2⟩
  rcases h.1 with ⟨heq, _⟩ | ⟨_, hdec⟩
  · exact absurd heq (by decide)
  · exact hdec

end Claims

end Day31
